import Mathlib

/-!
# AsyncScrollingMessage — verified model

A shallow embedding of `AsyncScrollingMessage.hpp`: a helper class that
splits a long message into a linked chain of chunks sized for the Arduino
LED-matrix animation buffer, and splices independent chains together.

Two views of the same class are modelled:

* the value of the chain built by `generateMessages` — the code allocates
  fresh nodes and appends each at the tail via `setNext`, so that chain is
  linear and is modelled as a `List Chunk`;
* the pointer structure used by `setNext` / `insertNext` / `getNext` —
  modelled as a heap of nodes addressed by `Nat`, with `next : Option Nat`
  standing for the `next` pointer (`none` = `nullptr`).
-/

/-- Characters of an Arduino `String`. -/
abbrev ArdString := List Char

/-- Arduino `String::substring(left, right)`: swaps the bounds when they are
reversed, clamps them to the length, and returns the characters of the
half-open range `[left, right)`. -/
def substring (s : ArdString) (left right : Nat) : ArdString :=
  (s.take (max left right)).drop (min left right)

/-- The data of one `AsyncScrollingMessage` node, without the `next`
pointer: the stored `message` text and the two continuation flags. -/
structure Chunk where
  message : ArdString
  hContinuation : Bool
  iContinuation : Bool
deriving DecidableEq

/-- The `while (start < end)` loop of the private `generateMessages`.
Each iteration emits the chunk `message.substring(start, end)` with
`needsContinue = (end < message.length())` and advances `start` by
`maxFullyScrollChars`.  `fuel` bounds the number of iterations; the loop
advances `start` by `maxFullyScrollChars ≥ 1` each time, so
`message.length` iterations always suffice (and when the fuel runs out the
loop condition `start < end` has already failed, so `[]` agrees with the
source in every reachable case). -/
def genLoop (fuel : Nat) (message : ArdString)
    (maxFullyScrollChars maxShownChars start : Nat) : List Chunk :=
  match fuel with
  | 0 => []
  | fuel' + 1 =>
    let e := min message.length (start + maxShownChars)
    if start < e then
      ⟨substring message start e, decide (e < message.length), true⟩ ::
        genLoop fuel' message maxFullyScrollChars maxShownChars
          (start + maxFullyScrollChars)
    else []

/-- The private `generateMessages(message, matrix, animMaxChars, font,
iContinuation)`.  `matrixWidth` is `matrix.width()`, `fontWidth` is
`font.width`; `screenChars`, `maxFullyScrollChars` and `maxShownChars` are
computed exactly as in the source.  The first node is built from
`substring(0, firstEnd)` with flags `(needsContinue, iContinuation)`; when a
continuation is needed the loop appends the remaining chunks. -/
def generateMessagesFrom (message : ArdString)
    (matrixWidth animMaxChars fontWidth : Nat)
    (iContinuation : Bool) : List Chunk :=
  let screenChars := matrixWidth / fontWidth
  let maxFullyScrollChars := animMaxChars / fontWidth
  let maxShownChars := maxFullyScrollChars + screenChars
  let needsContinue : Bool := decide (message.length > maxFullyScrollChars)
  let firstEnd := min message.length maxShownChars
  let sub := substring message 0 firstEnd
  let am : Chunk := ⟨sub, needsContinue, iContinuation⟩
  if needsContinue then
    am :: genLoop message.length message maxFullyScrollChars maxShownChars
      maxFullyScrollChars
  else [am]

/-- The public `generateMessages`, which calls the private overload with
`iContinuation = false`. -/
def generateMessages (message : ArdString)
    (matrixWidth animMaxChars fontWidth : Nat) : List Chunk :=
  generateMessagesFrom message matrixWidth animMaxChars fontWidth false

/-- "Concatenating the chunk texts with overlaps removed": every chunk
after the first drops its leading `screenChars` characters. -/
def reconstruct (screenChars : Nat) : List Chunk → ArdString
  | [] => []
  | c :: rest => c.message ++ (rest.map fun d => d.message.drop screenChars).flatten

/-! ## The pointer-level model -/

/-- One `AsyncScrollingMessage` object as it sits in memory: its data plus
the `next` pointer (`none` = `nullptr`). -/
structure MsgNode where
  message : ArdString
  hContinuation : Bool
  iContinuation : Bool
  next : Option Nat
deriving DecidableEq

/-- A heap of `AsyncScrollingMessage` objects addressed by `Nat`;
`h a = none` means no live object at address `a`. -/
def Heap := Nat → Option MsgNode

/-- `setNext(nextMessage)` on the object at `self`: `next = nextMessage;
return nextMessage;`.  Returns the updated heap and the returned pointer. -/
def setNext (h : Heap) (self : Nat) (nextMessage : Option Nat) :
    Heap × Option Nat :=
  (fun b => if b = self then
      match h self with
      | some nd => some { nd with next := nextMessage }
      | none => none
    else h b,
   nextMessage)

/-- The `while (findLast->hasContinuation()) findLast = findLast->getNext();`
walk of `insertNext`, with fuel.  Following a null pointer (`none`) or a
dangling address never produces a node in the source (undefined behaviour /
no successful termination), and never yields `some` here. -/
def findLast (h : Heap) : Option Nat → Nat → Option Nat
  | none, _ => none
  | some _, 0 => none
  | some a, fuel + 1 =>
    match h a with
    | none => none
    | some nd =>
      if nd.hContinuation then findLast h nd.next fuel else some a

/-- `insertNext(nextMessage)` on the object at `self`: walk `nextMessage`'s
continuation run to its last node, set that node's `next` to `self`'s
current `next`, then `setNext(nextMessage)` on `self` (which returns
`nextMessage`).  Yields `none` when the walk does not successfully
terminate within `fuel` steps or `self` is not a live object. -/
def insertNext (h : Heap) (self : Nat) (nextMessage : Option Nat)
    (fuel : Nat) : Option (Heap × Option Nat) :=
  match h self, findLast h nextMessage fuel with
  | some selfNd, some tail =>
    let h1 := (setNext h tail selfNd.next).1
    some (setNext h1 self nextMessage)
  | _, _ => none

/-- `GoodFlags h a l`: along the run `a :: l` every node but the last has
`hContinuation = true` and the last has `hContinuation = false` — the flag
pattern under which the `hasContinuation` walk of `insertNext` stops
exactly at the run's last node.  Chains built by the public constructor
always have this shape; chains built by `generateMessages` have it unless
a middle chunk's slice already reaches the end of the message (see
`generateMessages_flags_counterexample`), in which case the walk stops at
that middle chunk. -/
def GoodFlags (h : Heap) (a : Nat) : List Nat → Prop
  | [] => ∃ nd, h a = some nd ∧ nd.hContinuation = false
  | c :: l => ∃ nd, h a = some nd ∧ nd.hContinuation = true ∧ GoodFlags h c l

/-- The continuation run starting at address `a` reaches, in finitely many
`next` steps through nodes with `hContinuation = true`, a live node with
`hContinuation = false`. -/
inductive ReachesEnd (h : Heap) : Nat → Prop where
  | stop (a : Nat) (nd : MsgNode) :
      h a = some nd → nd.hContinuation = false → ReachesEnd h a
  | step (a c : Nat) (nd : MsgNode) :
      h a = some nd → nd.hContinuation = true → nd.next = some c →
      ReachesEnd h c → ReachesEnd h a

/-! ## Concrete instances used to evaluate the theorems -/

/-- A 50-character message; with `animMaxChars = 20`, `matrix.width() = 8`
and `font.width = 1` this is the worked example of the specification
(chunk boundaries `[0,28)`, `[20,48)`, `[40,50)`). -/
def msg50 : ArdString := List.replicate 50 'a'

/-- A 45-character message; with the same display parameters the middle
chunk `[20,45)` already reaches the end of the message even though a third
chunk `[40,45)` follows it. -/
def msg45 : ArdString := List.replicate 45 'a'

/-- A heap with a single live object at address `0` (no continuation);
every other address is dead. -/
def wHeap1 : Heap := fun a =>
  if a = 0 then some ⟨['a'], false, false, none⟩ else none

/-- The chunk the loop of `generateMessagesFrom` emits at cursor `s`. -/
def loopChunk (message : ArdString) (maxShownChars s : Nat) : Chunk :=
  ⟨substring message s (min message.length (s + maxShownChars)),
   decide (min message.length (s + maxShownChars) < message.length), true⟩

/-- Number of chunks the loop emits when started at cursor `s`. -/
def loopCount (len cap s : Nat) : Nat :=
  if s < len then (len - s - 1) / cap + 1 else 0

/-- Closed form of the splitting loop: starting at cursor `s` with enough
fuel, it emits one `loopChunk` per cursor position `s + i * cap` below the
message length. -/
theorem genLoop_eq_range (message : ArdString) (cap maxShown : Nat)
    (hcap : 0 < cap) (hms : 0 < maxShown) :
    ∀ fuel s, message.length ≤ s + fuel * cap →
      genLoop fuel message cap maxShown s =
        (List.range (loopCount message.length cap s)).map
          (fun i => loopChunk message maxShown (s + i * cap)) := by
  intro fuel
  induction fuel with
  | zero =>
    intro s h
    rw [loopCount, if_neg (by omega)]
    rfl
  | succ fuel ih =>
    intro s h
    by_cases hs : s < message.length
    · have he : s < min message.length (s + maxShown) := lt_min hs (by omega)
      have hcount : loopCount message.length cap s =
          (message.length - s - 1) / cap + 1 := by
        rw [loopCount, if_pos hs]
      have htail : (message.length - s - 1) / cap =
          loopCount message.length cap (s + cap) := by
        by_cases h2 : s + cap < message.length
        · rw [loopCount, if_pos h2]
          have harg : message.length - s - 1 =
              (message.length - (s + cap) - 1) + cap := by omega
          rw [harg, Nat.add_div_right _ hcap]
        · rw [loopCount, if_neg h2]
          exact Nat.div_eq_of_lt (by omega)
      have hsm : (fuel + 1) * cap = fuel * cap + cap := by ring
      have hfuel : message.length ≤ (s + cap) + fuel * cap := by omega
      simp only [genLoop, if_pos he]
      rw [hcount, List.range_succ_eq_map, List.map_cons, List.map_map,
        ih (s + cap) hfuel, htail]
      congr 1
      · simp [loopChunk]
      · apply List.map_congr_left
        intro i _
        simp only [Function.comp]
        have harg : s + Nat.succ i * cap = s + cap + i * cap := by
          rw [Nat.succ_mul]
          omega
        rw [harg]
    · have he : ¬ s < min message.length (s + maxShown) := by
        have := Nat.min_le_left message.length (s + maxShown)
        omega
      simp only [genLoop, if_neg he]
      rw [loopCount, if_neg (by omega)]
      rfl

/-- Closed form of `generateMessagesFrom` in the multi-chunk case. -/
theorem generateMessagesFrom_eq (message : ArdString)
    (mw amc fw : Nat) (iC : Bool) (hcap : 0 < amc / fw)
    (hlen : amc / fw < message.length) :
    generateMessagesFrom message mw amc fw iC =
      ⟨substring message 0 (min message.length (amc / fw + mw / fw)),
        true, iC⟩ ::
      (List.range ((message.length - amc / fw - 1) / (amc / fw) + 1)).map
        (fun i => loopChunk message (amc / fw + mw / fw)
          (amc / fw + i * (amc / fw))) := by
  have hfuel : message.length ≤ amc / fw + message.length * (amc / fw) := by
    have h1 : message.length * 1 ≤ message.length * (amc / fw) :=
      Nat.mul_le_mul_left _ hcap
    have h2 : message.length * 1 = message.length := Nat.mul_one _
    omega
  have hneed : decide (message.length > amc / fw) = true := by
    simpa using hlen
  simp only [generateMessagesFrom, hneed, if_pos]
  rw [genLoop_eq_range message (amc / fw) (amc / fw + mw / fw) hcap
    (Nat.lt_of_lt_of_le hcap (Nat.le_add_right _ _)) message.length
    (amc / fw) hfuel]
  rw [loopCount, if_pos hlen]

/-- Closed form of `generateMessagesFrom` in the single-chunk case:
the whole message fits. -/
theorem generateMessagesFrom_single (message : ArdString)
    (mw amc fw : Nat) (iC : Bool) (hlen : message.length ≤ amc / fw) :
    generateMessagesFrom message mw amc fw iC = [⟨message, false, iC⟩] := by
  have hneed : decide (message.length > amc / fw) = false := by
    simp
    omega
  have hmin : min message.length (amc / fw + mw / fw) = message.length := by
    have := Nat.le_add_right (amc / fw) (mw / fw)
    omega
  have hsub : substring message 0
      (min message.length (amc / fw + mw / fw)) = message := by
    rw [hmin, substring]
    simp
  simp only [generateMessagesFrom, hneed, hsub]
  rfl

/-! ## Helper lemmas -/

/-- `message.length` is enough fuel for the loop started at cursor `cap`. -/
lemma fuel_ok (len cap : Nat) (hcap : 0 < cap) : len ≤ cap + len * cap := by
  have h1 : len * 1 ≤ len * cap := Nat.mul_le_mul_left _ hcap
  have h2 : len * 1 = len := Nat.mul_one _
  omega

lemma take_min_length {α : Type} (l : List α) (n : Nat) :
    l.take (min l.length n) = l.take n := by
  rw [Nat.min_comm, ← List.take_take, List.take_length]

lemma drop_take_append_drop {α : Type} (l : List α) (n m : Nat) (h : n ≤ m) :
    (l.take m).drop n ++ l.drop m = l.drop n := by
  rw [List.drop_take]
  have h2 : l.drop m = (l.drop n).drop (m - n) := by
    rw [List.drop_drop]
    congr 1
    omega
  rw [h2, List.take_append_drop]

/-- A `loopChunk` at a cursor inside the message is the plain slice
`[s, min(length, s + maxShown))` of the message. -/
lemma loopChunk_eq (message : ArdString) (maxShown s : Nat)
    (hs : s < message.length) :
    loopChunk message maxShown s =
      ⟨(message.take (min message.length (s + maxShown))).drop s,
       decide (min message.length (s + maxShown) < message.length), true⟩ := by
  have hse : s ≤ min message.length (s + maxShown) :=
    le_min (Nat.le_of_lt hs) (Nat.le_add_right s maxShown)
  rw [loopChunk, substring, Nat.max_eq_right hse, Nat.min_eq_left hse]

lemma generateMessagesFrom_getElem_zero (message : ArdString)
    (mw amc fw : Nat) (iC : Bool) (hcap : 0 < amc / fw)
    (hlen : amc / fw < message.length) :
    (generateMessagesFrom message mw amc fw iC)[0]? =
      some ⟨substring message 0 (min message.length (amc / fw + mw / fw)),
        true, iC⟩ := by
  rw [generateMessagesFrom_eq message mw amc fw iC hcap hlen]
  rw [List.getElem?_cons_zero]

lemma generateMessagesFrom_getElem_loop (message : ArdString)
    (mw amc fw : Nat) (iC : Bool) (hcap : 0 < amc / fw)
    (hlen : amc / fw < message.length) (k : Nat) (hk : 1 ≤ k)
    (hklen : k * (amc / fw) < message.length) :
    (generateMessagesFrom message mw amc fw iC)[k]? =
      some (loopChunk message (amc / fw + mw / fw) (k * (amc / fw))) := by
  obtain ⟨j, rfl⟩ : ∃ j, k = j + 1 := ⟨k - 1, by omega⟩
  have hsm : (j + 1) * (amc / fw) = j * (amc / fw) + amc / fw :=
    Nat.succ_mul j (amc / fw)
  rw [generateMessagesFrom_eq message mw amc fw iC hcap hlen]
  rw [List.getElem?_cons_succ, List.getElem?_map]
  have hjlt : j < (message.length - amc / fw - 1) / (amc / fw) + 1 := by
    have hle : j * (amc / fw) ≤ message.length - amc / fw - 1 := by omega
    have h2 := (Nat.le_div_iff_mul_le hcap).mpr hle
    omega
  rw [List.getElem?_range hjlt]
  have harg : amc / fw + j * (amc / fw) = (j + 1) * (amc / fw) := by omega
  rw [Option.map_some', harg]

lemma generateMessagesFrom_length (message : ArdString)
    (mw amc fw : Nat) (iC : Bool) (hcap : 0 < amc / fw)
    (hlen : amc / fw < message.length) :
    (generateMessagesFrom message mw amc fw iC).length =
      (message.length - amc / fw - 1) / (amc / fw) + 2 := by
  rw [generateMessagesFrom_eq message mw amc fw iC hcap hlen]
  simp only [List.length_cons, List.length_map, List.length_range]

/-- Valid positive indices correspond to loop cursors below the length. -/
lemma index_mul_lt (len cap : Nat) (_hcap : 0 < cap) (hlen : cap < len)
    (i : Nat) (hi : i < (len - cap - 1) / cap + 2) : i * cap < len := by
  generalize hq : (len - cap - 1) / cap = q at hi
  have h2 : q * cap ≤ len - cap - 1 := by
    rw [← hq]
    exact Nat.div_mul_le_self _ _
  have h3 : i * cap ≤ (q + 1) * cap := Nat.mul_le_mul_right cap (by omega)
  have h4 : (q + 1) * cap = q * cap + cap := Nat.succ_mul _ _
  omega

/-- Conversely, a loop cursor below the length is a valid index. -/
lemma mul_lt_index (len cap : Nat) (hcap : 0 < cap) (hlen : cap < len)
    (k : Nat) (hk : k * cap < len) : k < (len - cap - 1) / cap + 2 := by
  rcases k with _ | j
  · exact Nat.lt_of_lt_of_le Nat.zero_lt_two (Nat.le_add_left 2 _)
  · have h4 : (j + 1) * cap = j * cap + cap := Nat.succ_mul _ _
    have h1 : j * cap ≤ len - cap - 1 := by omega
    have h3 := (Nat.le_div_iff_mul_le hcap).mpr h1
    exact Nat.lt_succ_of_le (Nat.succ_le_succ h3)

/-- The last chunk's slice always reaches the end of the message. -/
lemma last_end_ge (len cap screen : Nat) (hcap : 0 < cap) (hlen : cap < len) :
    len ≤ ((len - cap - 1) / cap + 1) * cap + cap + screen := by
  have h1 := Nat.div_add_mod (len - cap - 1) cap
  have h2 : (len - cap - 1) % cap < cap := Nat.mod_lt _ hcap
  have h3 : ((len - cap - 1) / cap + 1) * cap
      = (len - cap - 1) / cap * cap + cap := Nat.succ_mul _ _
  have h4 : cap * ((len - cap - 1) / cap) = (len - cap - 1) / cap * cap :=
    Nat.mul_comm _ _
  omega

/-- Every chunk the loop emits stores at most `maxShown` characters. -/
lemma genLoop_message_le (message : ArdString) (cap maxShown : Nat) :
    ∀ fuel s c, c ∈ genLoop fuel message cap maxShown s →
      c.message.length ≤ maxShown := by
  intro fuel
  induction fuel with
  | zero =>
    intro s c hc
    simp [genLoop] at hc
  | succ fuel ih =>
    intro s c hc
    simp only [genLoop] at hc
    by_cases hse : s < min message.length (s + maxShown)
    · rw [if_pos hse] at hc
      rcases List.mem_cons.mp hc with h | h
      · subst h
        simp only [substring, List.length_drop, List.length_take]
        omega
      · exact ih _ _ h
    · rw [if_neg hse] at hc
      simp at hc

/-- Joining the loop's chunks, each with its leading `screen` characters
removed, gives the tail of the message from position `s + screen` on. -/
lemma genLoop_flatten (message : ArdString) (cap screen : Nat)
    (hcap : 0 < cap) :
    ∀ fuel s, message.length ≤ s + fuel * cap →
      ((genLoop fuel message cap (cap + screen) s).map
        (fun c => c.message.drop screen)).flatten =
        message.drop (s + screen) := by
  intro fuel
  induction fuel with
  | zero =>
    intro s h
    have : message.length ≤ s + screen := by omega
    rw [List.drop_eq_nil_of_le this]
    rfl
  | succ fuel ih =>
    intro s h
    by_cases hs : s < message.length
    · have he : s < min message.length (s + (cap + screen)) :=
        lt_min hs (by omega)
      have hsm : (fuel + 1) * cap = fuel * cap + cap := by ring
      have hfuel : message.length ≤ (s + cap) + fuel * cap := by omega
      simp only [genLoop, if_pos he, List.map_cons, List.flatten_cons]
      rw [ih (s + cap) hfuel]
      have hse : s ≤ min message.length (s + (cap + screen)) :=
        le_min (Nat.le_of_lt hs) (Nat.le_add_right _ _)
      rw [substring, Nat.max_eq_right hse, Nat.min_eq_left hse]
      rw [take_min_length, List.drop_drop]
      have h2 : s + cap + screen = s + (cap + screen) := by omega
      rw [h2]
      exact drop_take_append_drop message (s + screen) (s + (cap + screen))
        (by omega)
    · have he : ¬ s < min message.length (s + (cap + screen)) := by
        have := Nat.min_le_left message.length (s + (cap + screen))
        omega
      simp only [genLoop, if_neg he]
      rw [List.drop_eq_nil_of_le (by omega)]
      rfl

/-- The first chunk's text is at most `m` characters long. -/
lemma substring_zero_length_le (message : ArdString) (m : Nat) :
    (substring message 0 (min message.length m)).length ≤ m := by
  simp only [substring, List.length_drop, List.length_take]
  omega

/-! ## Claims about `generateMessages` -/

/-- C1: for a message longer than `chunkCapacity = animMaxChars / font.width`,
`generateMessages` produces chunk 0 with text the slice
`[0, min(length, chunkCapacity + displayVisibleChars))` and
`hasContinuation = true`, and for every `k ≥ 1` with
`k * chunkCapacity < length` a chunk `k` with text the slice
`[k * chunkCapacity, min(length, k * chunkCapacity + chunkCapacity +
displayVisibleChars))`, `isContinuation = true`, and `hasContinuation`
true exactly when that end is strictly below the message length
(`displayVisibleChars = matrix.width() / font.width`). -/
theorem generateMessages_chunk_layout (message : ArdString)
    (mw amc fw : Nat) (hcap : 0 < amc / fw)
    (hlen : amc / fw < message.length) :
    (generateMessages message mw amc fw)[0]? =
      some ⟨(message.take (min message.length (amc / fw + mw / fw))).drop 0,
        true, false⟩ ∧
    ∀ k, 1 ≤ k → k * (amc / fw) < message.length →
      (generateMessages message mw amc fw)[k]? =
        some ⟨(message.take (min message.length
            (k * (amc / fw) + amc / fw + mw / fw))).drop (k * (amc / fw)),
          decide (min message.length
            (k * (amc / fw) + amc / fw + mw / fw) < message.length),
          true⟩ := by
  constructor
  · rw [generateMessages,
      generateMessagesFrom_getElem_zero message mw amc fw false hcap hlen]
    simp [substring]
  · intro k hk hklen
    rw [generateMessages,
      generateMessagesFrom_getElem_loop message mw amc fw false hcap hlen
        k hk hklen]
    rw [loopChunk_eq message _ _ hklen]
    have harg : k * (amc / fw) + (amc / fw + mw / fw)
        = k * (amc / fw) + amc / fw + mw / fw := by omega
    rw [harg]

theorem generateMessages_chunk_layout_witness :
    0 < 20 / 1 ∧ 20 / 1 < msg50.length ∧
    (generateMessages msg50 8 20 1)[0]? =
      some ⟨(msg50.take (min msg50.length (20 / 1 + 8 / 1))).drop 0,
        true, false⟩ ∧
    (generateMessages msg50 8 20 1)[2]? =
      some ⟨(msg50.take (min msg50.length
          (2 * (20 / 1) + 20 / 1 + 8 / 1))).drop (2 * (20 / 1)),
        decide (min msg50.length
          (2 * (20 / 1) + 20 / 1 + 8 / 1) < msg50.length),
        true⟩ :=
  ⟨by decide, by decide,
    (generateMessages_chunk_layout msg50 8 20 1 (by decide) (by decide)).1,
    (generateMessages_chunk_layout msg50 8 20 1 (by decide) (by decide)).2
      2 (by decide) (by decide)⟩

/-- C4: for a message longer than `chunkCapacity`, `generateMessages`
produces exactly `⌈(length − chunkCapacity) / chunkCapacity⌉ + 1` chunks
(one node per list entry, linked in order). -/
theorem generateMessages_chunk_count (message : ArdString)
    (mw amc fw : Nat) (hcap : 0 < amc / fw)
    (hlen : amc / fw < message.length) :
    (generateMessages message mw amc fw).length =
      (message.length - amc / fw + (amc / fw - 1)) / (amc / fw) + 1 := by
  rw [generateMessages,
    generateMessagesFrom_length message mw amc fw false hcap hlen]
  have h1 : message.length - amc / fw + (amc / fw - 1)
      = (message.length - amc / fw - 1) + amc / fw := by omega
  rw [h1, Nat.add_div_right _ hcap]

theorem generateMessages_chunk_count_witness :
    0 < 20 / 1 ∧ 20 / 1 < msg50.length ∧
    (generateMessages msg50 8 20 1).length =
      (msg50.length - 20 / 1 + (20 / 1 - 1)) / (20 / 1) + 1 :=
  ⟨by decide, by decide,
    generateMessages_chunk_count msg50 8 20 1 (by decide) (by decide)⟩

/-- C6: for a message of at most `chunkCapacity` characters,
`generateMessages` produces exactly one chunk whose text is the whole
message, with both flags `false` and nothing after it. -/
theorem generateMessages_single_chunk (message : ArdString)
    (mw amc fw : Nat) (hlen : message.length ≤ amc / fw) :
    generateMessages message mw amc fw = [⟨message, false, false⟩] :=
  generateMessagesFrom_single message mw amc fw false hlen

theorem generateMessages_single_chunk_witness :
    (['h', 'i'] : ArdString).length ≤ 20 / 1 ∧
    generateMessages ['h', 'i'] 8 20 1 = [⟨['h', 'i'], false, false⟩] :=
  ⟨by decide, generateMessages_single_chunk ['h', 'i'] 8 20 1 (by decide)⟩

/-- C2: concatenating the chunk texts, each chunk after the first dropping
its leading `displayVisibleChars` characters, reconstructs the original
message (capacities as computed by the source; the chunk capacity must be
positive for the source's loop to advance). -/
theorem generateMessages_reconstruct (message : ArdString)
    (mw amc fw : Nat) (hcap : 0 < amc / fw) :
    reconstruct (mw / fw) (generateMessages message mw amc fw) = message := by
  by_cases hlen : message.length ≤ amc / fw
  · rw [generateMessages, generateMessagesFrom_single message mw amc fw false hlen]
    simp [reconstruct]
  · push_neg at hlen
    have hneed : decide (message.length > amc / fw) = true := by simpa using hlen
    rw [generateMessages]
    simp only [generateMessagesFrom, hneed, if_pos]
    rw [reconstruct]
    rw [genLoop_flatten message (amc / fw) (mw / fw) hcap message.length
      (amc / fw) (fuel_ok message.length (amc / fw) hcap)]
    rw [substring]
    simp only [Nat.zero_max, Nat.zero_min, List.drop_zero]
    rw [take_min_length]
    exact List.take_append_drop _ _

theorem generateMessages_reconstruct_witness :
    0 < 20 / 1 ∧
    reconstruct (8 / 1) (generateMessages msg50 8 20 1) = msg50 :=
  ⟨by decide, generateMessages_reconstruct msg50 8 20 1 (by decide)⟩

/-- C10: every chunk produced by `generateMessages` stores at most
`chunkCapacity + displayVisibleChars` characters, so its text fits the
animation buffer plus one visible screen. -/
theorem generateMessages_chunk_size (message : ArdString)
    (mw amc fw : Nat) :
    ∀ c ∈ generateMessages message mw amc fw,
      c.message.length ≤ amc / fw + mw / fw := by
  intro c hc
  simp only [generateMessages, generateMessagesFrom] at hc
  split at hc
  · rcases List.mem_cons.mp hc with h | h
    · subst h
      exact substring_zero_length_le message (amc / fw + mw / fw)
    · exact genLoop_message_le message (amc / fw) (amc / fw + mw / fw)
        message.length (amc / fw) c h
  · rcases List.mem_cons.mp hc with h | h
    · subst h
      exact substring_zero_length_le message (amc / fw + mw / fw)
    · simp at h

theorem generateMessages_chunk_size_witness :
    (⟨List.replicate 28 'a', true, false⟩ : Chunk)
      ∈ generateMessages msg50 8 20 1 ∧
    (⟨List.replicate 28 'a', true, false⟩ : Chunk).message.length
      ≤ 20 / 1 + 8 / 1 :=
  ⟨by decide,
    generateMessages_chunk_size msg50 8 20 1 _ (by decide)⟩

/-- C3 counterexample: with `animMaxChars = 20`, `matrix.width() = 8` and
`font.width = 1` (so `chunkCapacity = 20`, `displayVisibleChars = 8`) and a
45-character message, three chunks are produced but chunk 1 — which is not
the last — has `hasContinuation = false`, because its slice
`[20, min(45, 48)) = [20, 45)` already reaches the end of the message.
This refutes "every chunk except the last has `hasContinuation = true`". -/
theorem generateMessages_flags_counterexample :
    0 < 20 / 1 ∧ 20 / 1 < msg45.length ∧
    1 + 1 < (generateMessages msg45 8 20 1).length ∧
    ((generateMessages msg45 8 20 1).getD 1
      ⟨[], false, false⟩).hContinuation = false := by decide

/-- C3 (amended): for a message longer than `chunkCapacity`, every chunk
except the first has `isContinuation = true`; chunk 0 has
`hasContinuation = true`; every later chunk `k` has `hasContinuation = true`
exactly when its end `min(length, k·chunkCapacity + chunkCapacity +
displayVisibleChars)` is strictly below the message length; and the last
chunk always has `hasContinuation = false`. -/
theorem generateMessages_flags (message : ArdString) (mw amc fw : Nat)
    (hcap : 0 < amc / fw) (hlen : amc / fw < message.length) :
    (∀ i, 0 < i → i < (generateMessages message mw amc fw).length →
      ((generateMessages message mw amc fw).getD i
        ⟨[], false, false⟩).iContinuation = true) ∧
    ((generateMessages message mw amc fw).getD 0
      ⟨[], false, false⟩).hContinuation = true ∧
    (∀ k, 1 ≤ k → k * (amc / fw) < message.length →
      (((generateMessages message mw amc fw).getD k
        ⟨[], false, false⟩).hContinuation = true ↔
        min message.length (k * (amc / fw) + amc / fw + mw / fw)
          < message.length)) ∧
    ((generateMessages message mw amc fw).getD
      ((generateMessages message mw amc fw).length - 1)
      ⟨[], false, false⟩).hContinuation = false := by
  have hLen := generateMessagesFrom_length message mw amc fw false hcap hlen
  refine ⟨?_, ?_, ?_, ?_⟩
  · intro i h0 hi
    rw [generateMessages] at hi ⊢
    rw [hLen] at hi
    have hk : i * (amc / fw) < message.length :=
      index_mul_lt message.length (amc / fw) hcap hlen i hi
    rw [List.getD_eq_getElem?_getD,
      generateMessagesFrom_getElem_loop message mw amc fw false hcap hlen
        i h0 hk, Option.getD_some]
    rfl
  · rw [generateMessages, List.getD_eq_getElem?_getD,
      generateMessagesFrom_getElem_zero message mw amc fw false hcap hlen,
      Option.getD_some]
  · intro k hk1 hklen
    rw [generateMessages, List.getD_eq_getElem?_getD,
      generateMessagesFrom_getElem_loop message mw amc fw false hcap hlen
        k hk1 hklen, Option.getD_some, loopChunk]
    have harg : k * (amc / fw) + (amc / fw + mw / fw)
        = k * (amc / fw) + amc / fw + mw / fw := by omega
    rw [harg]
    exact decide_eq_true_iff
  · obtain ⟨q, hq⟩ : ∃ q',
        (message.length - amc / fw - 1) / (amc / fw) = q' := ⟨_, rfl⟩
    rw [generateMessages, List.getD_eq_getElem?_getD, hLen, hq]
    have hidx : (q + 1) * (amc / fw) < message.length := by
      apply index_mul_lt message.length (amc / fw) hcap hlen
      rw [hq]
      omega
    have hsimp : q + 2 - 1 = q + 1 := by omega
    rw [hsimp,
      generateMessagesFrom_getElem_loop message mw amc fw false hcap hlen
        (q + 1) (by omega) hidx, Option.getD_some, loopChunk]
    have hge := last_end_ge message.length (amc / fw) (mw / fw) hcap hlen
    rw [hq] at hge
    have hge2 : message.length
        ≤ (q + 1) * (amc / fw) + (amc / fw + mw / fw) := by omega
    rw [Nat.min_eq_left hge2]
    simp

theorem generateMessages_flags_witness :
    0 < 20 / 1 ∧ 20 / 1 < msg50.length ∧
    ((generateMessages msg50 8 20 1).getD 1
      ⟨[], false, false⟩).iContinuation = true ∧
    ((generateMessages msg50 8 20 1).getD 0
      ⟨[], false, false⟩).hContinuation = true ∧
    (((generateMessages msg50 8 20 1).getD 1
      ⟨[], false, false⟩).hContinuation = true ↔
      min msg50.length (1 * (20 / 1) + 20 / 1 + 8 / 1) < msg50.length) ∧
    ((generateMessages msg50 8 20 1).getD
      ((generateMessages msg50 8 20 1).length - 1)
      ⟨[], false, false⟩).hContinuation = false :=
  ⟨by decide, by decide,
    (generateMessages_flags msg50 8 20 1 (by decide) (by decide)).1
      1 (by decide) (by decide),
    (generateMessages_flags msg50 8 20 1 (by decide) (by decide)).2.1,
    (generateMessages_flags msg50 8 20 1 (by decide) (by decide)).2.2.1
      1 (by decide) (by decide),
    (generateMessages_flags msg50 8 20 1 (by decide) (by decide)).2.2.2⟩

/-- C5 counterexample: with `chunkCapacity = 20`, `displayVisibleChars = 8`
and a 45-character message, chunk 1 covers `[20, 45)` and chunk 2 covers
`[40, 45)`: chunk 2's region begins `45 − 40 = 5` characters before chunk
1's end, not `screenChars = 8`; equivalently the non-last chunk 1 holds 25
characters instead of `chunkCapacity + screenChars = 28`.  This refutes
"every pair of consecutive chunks overlaps by exactly `screenChars`". -/
theorem generateMessages_overlap_counterexample :
    0 < 20 / 1 ∧ 20 / 1 < msg45.length ∧
    1 + 1 < (generateMessages msg45 8 20 1).length ∧
    ((generateMessages msg45 8 20 1).getD 1 ⟨[], false, false⟩).message
      = (msg45.take 45).drop 20 ∧
    ((generateMessages msg45 8 20 1).getD 2 ⟨[], false, false⟩).message
      = (msg45.take 45).drop 40 ∧
    ((generateMessages msg45 8 20 1).getD 1
      ⟨[], false, false⟩).message.length = 25 ∧
    (25 : Nat) ≠ 20 / 1 + 8 / 1 := by decide

/-- C5 (amended): each chunk before the last holds exactly
`min(chunkCapacity + screenChars, length − k·chunkCapacity)` characters,
so the next chunk's region begins exactly
`min(screenChars, length − (k+1)·chunkCapacity)` characters before this
chunk's end — equal to `screenChars` whenever the message extends at least
`screenChars` past the next chunk's start, and smaller on a final short
overlap. -/
theorem generateMessages_overlap (message : ArdString) (mw amc fw : Nat)
    (hcap : 0 < amc / fw) (hlen : amc / fw < message.length) :
    ∀ k, k + 1 < (generateMessages message mw amc fw).length →
      ((generateMessages message mw amc fw).getD k
          ⟨[], false, false⟩).message.length
        = min (amc / fw + mw / fw) (message.length - k * (amc / fw)) ∧
      k * (amc / fw) + ((generateMessages message mw amc fw).getD k
          ⟨[], false, false⟩).message.length - (k + 1) * (amc / fw)
        = min (mw / fw) (message.length - (k + 1) * (amc / fw)) := by
  intro k hk
  obtain ⟨cap, hc⟩ : ∃ c, amc / fw = c := ⟨_, rfl⟩
  obtain ⟨screen, hsc⟩ : ∃ s, mw / fw = s := ⟨_, rfl⟩
  have hLen := generateMessagesFrom_length message mw amc fw false hcap hlen
  obtain ⟨q, hq⟩ : ∃ q',
      (message.length - amc / fw - 1) / (amc / fw) = q' := ⟨_, rfl⟩
  rw [hq] at hLen
  rw [generateMessages] at hk ⊢
  rw [hLen] at hk
  rw [hc, hsc]
  rcases Nat.eq_zero_or_pos k with rfl | hpos
  · have hz := generateMessagesFrom_getElem_zero message mw amc fw false
      hcap hlen
    rw [hc, hsc] at hz
    rw [List.getD_eq_getElem?_getD, hz, Option.getD_some]
    have hlen2 : cap < message.length := by rw [← hc]; exact hlen
    constructor
    · show (substring message 0
          (min message.length (cap + screen))).length = _
      rw [substring]
      simp only [List.length_drop, List.length_take, Nat.zero_max,
        Nat.zero_min, Nat.zero_mul]
      omega
    · show 0 * cap + (substring message 0
          (min message.length (cap + screen))).length - (0 + 1) * cap = _
      rw [substring]
      simp only [List.length_drop, List.length_take, Nat.zero_max,
        Nat.zero_min]
      have h1 : (0 + 1) * cap = cap := by omega
      rw [h1]
      omega
  · obtain ⟨j, rfl⟩ : ∃ j, k = j + 1 := ⟨k - 1, by omega⟩
    have hkc : (j + 1) * cap < message.length := by
      have := index_mul_lt message.length (amc / fw) hcap hlen (j + 1)
        (by rw [hq]; omega)
      rw [hc] at this
      exact this
    have hk1c : (j + 1 + 1) * cap < message.length := by
      have := index_mul_lt message.length (amc / fw) hcap hlen (j + 1 + 1)
        (by rw [hq]; omega)
      rw [hc] at this
      exact this
    have hsm : (j + 1 + 1) * cap = (j + 1) * cap + cap := Nat.succ_mul _ _
    have hl := generateMessagesFrom_getElem_loop message mw amc fw false
      hcap hlen (j + 1) (by omega) (by rw [hc]; exact hkc)
    rw [hc, hsc] at hl
    rw [List.getD_eq_getElem?_getD, hl, Option.getD_some,
      loopChunk_eq message (cap + screen) ((j + 1) * cap) hkc]
    constructor
    · show ((message.take (min message.length
          ((j + 1) * cap + (cap + screen)))).drop ((j + 1) * cap)).length = _
      simp only [List.length_drop, List.length_take]
      omega
    · show (j + 1) * cap + ((message.take (min message.length
          ((j + 1) * cap + (cap + screen)))).drop ((j + 1) * cap)).length
          - (j + 1 + 1) * cap = _
      simp only [List.length_drop, List.length_take]
      omega

theorem generateMessages_overlap_witness :
    0 < 20 / 1 ∧ 20 / 1 < msg50.length ∧
    1 + 1 < (generateMessages msg50 8 20 1).length ∧
    ((generateMessages msg50 8 20 1).getD 1
        ⟨[], false, false⟩).message.length
      = min (20 / 1 + 8 / 1) (msg50.length - 1 * (20 / 1)) ∧
    1 * (20 / 1) + ((generateMessages msg50 8 20 1).getD 1
        ⟨[], false, false⟩).message.length - (1 + 1) * (20 / 1)
      = min (8 / 1) (msg50.length - (1 + 1) * (20 / 1)) :=
  ⟨by decide, by decide, by decide,
    (generateMessages_overlap msg50 8 20 1 (by decide) (by decide)
      1 (by decide)).1,
    (generateMessages_overlap msg50 8 20 1 (by decide) (by decide)
      1 (by decide)).2⟩

/-! ## Lemmas about the pointer operations -/

lemma setNext_fst_self (h : Heap) (self : Nat) (nd : MsgNode)
    (nm : Option Nat) (hself : h self = some nd) :
    (setNext h self nm).1 self = some { nd with next := nm } := by
  simp [setNext, hself]

lemma setNext_fst_other (h : Heap) (self b : Nat) (nm : Option Nat)
    (hb : b ≠ self) : (setNext h self nm).1 b = h b := by
  simp [setNext, hb]

/-- `setNext` never changes any node's continuation flag. -/
lemma goodFlags_setNext (h : Heap) (t : Nat) (nm : Option Nat) :
    ∀ l a, GoodFlags h a l → GoodFlags (setNext h t nm).1 a l := by
  intro l
  induction l with
  | nil =>
    intro a ha
    obtain ⟨nd, hnd, hflag⟩ := ha
    by_cases hb : a = t
    · subst hb
      exact ⟨{ nd with next := nm }, setNext_fst_self h a nd nm hnd, hflag⟩
    · exact ⟨nd, by rw [setNext_fst_other h t a nm hb]; exact hnd, hflag⟩
  | cons c l ih =>
    intro a ha
    obtain ⟨nd, hnd, hflag, hrest⟩ := ha
    by_cases hb : a = t
    · subst hb
      exact ⟨{ nd with next := nm }, setNext_fst_self h a nd nm hnd, hflag,
        ih c hrest⟩
    · exact ⟨nd, by rw [setNext_fst_other h t a nm hb]; exact hnd, hflag,
        ih c hrest⟩

/-- A walk from a null pointer never produces a node. -/
lemma findLast_none (h : Heap) : ∀ fuel, findLast h none fuel = none := by
  intro fuel
  cases fuel <;> rfl

/-- A run that reaches a `hasContinuation = false` node makes the walk
succeed with some fuel. -/
lemma reaches_findLast (h : Heap) :
    ∀ a, ReachesEnd h a → ∃ fuel t, findLast h (some a) fuel = some t := by
  intro a hr
  induction hr with
  | stop a nd hnd hflag =>
    exact ⟨1, a, by simp [findLast, hnd, hflag]⟩
  | step a c nd hnd hflag hnext _ ih =>
    obtain ⟨fuel, t, hft⟩ := ih
    refine ⟨fuel + 1, t, ?_⟩
    simp only [findLast, hnd, hflag, if_true]
    rw [hnext]
    exact hft

/-- Conversely, a successful walk witnesses that the run reaches an end. -/
lemma findLast_reaches (h : Heap) :
    ∀ fuel a t, findLast h (some a) fuel = some t → ReachesEnd h a := by
  intro fuel
  induction fuel with
  | zero =>
    intro a t hf
    exact Option.noConfusion hf
  | succ fuel ih =>
    intro a t hf
    cases hha : h a with
    | none =>
      have hnone : findLast h (some a) (fuel + 1) = none := by
        simp [findLast, hha]
      rw [hnone] at hf
      exact Option.noConfusion hf
    | some nd =>
      by_cases hflag : nd.hContinuation = true
      · have heq : findLast h (some a) (fuel + 1) = findLast h nd.next fuel := by
          simp [findLast, hha, hflag]
        rw [heq] at hf
        cases hnx : nd.next with
        | none =>
          rw [hnx, findLast_none h fuel] at hf
          exact Option.noConfusion hf
        | some c =>
          rw [hnx] at hf
          exact ReachesEnd.step a c nd hha hflag hnx (ih c t hf)
      · have hfl : nd.hContinuation = false := by
          cases hb : nd.hContinuation
          · rfl
          · exact absurd hb hflag
        exact ReachesEnd.stop a nd hha hfl

/-! ## Claims about the pointer operations -/

/-- C8: with a live receiver, `insertNext(newChainHead)` terminates
(succeeds with some fuel) whenever `newChainHead`'s continuation run
reaches, in finitely many steps, a node with `hasContinuation = false`;
when `newChainHead` is null, or its run never reaches such a node (cyclic,
dangling or incomplete chain), the walk never successfully terminates: no
amount of fuel makes `insertNext` produce a result. -/
theorem insertNext_termination (h : Heap) (self : Nat) (nd : MsgNode)
    (hself : h self = some nd) :
    (∀ a, ReachesEnd h a →
      ∃ fuel r, insertNext h self (some a) fuel = some r) ∧
    (∀ fuel, insertNext h self none fuel = none) ∧
    (∀ a, ¬ ReachesEnd h a →
      ∀ fuel, insertNext h self (some a) fuel = none) := by
  refine ⟨?_, ?_, ?_⟩
  · intro a hr
    obtain ⟨fuel, t, hft⟩ := reaches_findLast h a hr
    refine ⟨fuel, setNext (setNext h t nd.next).1 self (some a), ?_⟩
    simp only [insertNext, hself, hft]
  · intro fuel
    simp only [insertNext, hself, findLast_none h fuel]
  · intro a hnr fuel
    cases hft : findLast h (some a) fuel with
    | none => simp only [insertNext, hself, hft]
    | some t => exact absurd (findLast_reaches h fuel a t hft) hnr

theorem insertNext_termination_witness :
    wHeap1 0 = some ⟨['a'], false, false, none⟩ ∧
    ReachesEnd wHeap1 0 ∧
    (∃ fuel r, insertNext wHeap1 0 (some 0) fuel = some r) ∧
    insertNext wHeap1 0 none 3 = none ∧
    ¬ ReachesEnd wHeap1 7 ∧
    insertNext wHeap1 0 (some 7) 3 = none :=
  have hself : wHeap1 0 = some ⟨['a'], false, false, none⟩ := rfl
  have hreach : ReachesEnd wHeap1 0 := ReachesEnd.stop 0 _ hself rfl
  have hnr : ¬ ReachesEnd wHeap1 7 := by
    intro hr
    cases hr <;> simp_all [wHeap1]
  ⟨hself, hreach,
    (insertNext_termination wHeap1 0 _ hself).1 0 hreach,
    (insertNext_termination wHeap1 0 _ hself).2.1 3,
    hnr,
    (insertNext_termination wHeap1 0 _ hself).2.2 7 hnr 3⟩

/-- C9: `setNext(nextMessage)` on a live chunk stores `nextMessage` in its
`next` field (discarding the previous link), returns `nextMessage`, and
leaves the chunk's text and both continuation flags — and every other heap
cell — unchanged. -/
theorem setNext_spec (h : Heap) (self : Nat) (nd : MsgNode)
    (nm : Option Nat) (hself : h self = some nd) :
    (setNext h self nm).2 = nm ∧
    (setNext h self nm).1 self =
      some ⟨nd.message, nd.hContinuation, nd.iContinuation, nm⟩ ∧
    ∀ b, b ≠ self → (setNext h self nm).1 b = h b := by
  refine ⟨rfl, ?_, ?_⟩
  · rw [setNext_fst_self h self nd nm hself]
  · intro b hb
    exact setNext_fst_other h self b nm hb

theorem setNext_spec_witness :
    wHeap1 0 = some ⟨['a'], false, false, none⟩ ∧
    (setNext wHeap1 0 (some 5)).2 = some 5 ∧
    (setNext wHeap1 0 (some 5)).1 0 = some ⟨['a'], false, false, some 5⟩ ∧
    (setNext wHeap1 0 (some 5)).1 3 = wHeap1 3 :=
  ⟨rfl,
    (setNext_spec wHeap1 0 ⟨['a'], false, false, none⟩ (some 5) rfl).1,
    (setNext_spec wHeap1 0 ⟨['a'], false, false, none⟩ (some 5) rfl).2.1,
    (setNext_spec wHeap1 0 ⟨['a'], false, false, none⟩ (some 5) rfl).2.2 3
      (by decide)⟩
